import Mathlib

/-!
Verification model of `report_generator.py` (AI_AutoReport).

The program text is modelled at the character level (`List Char`).  Python
regular-expression behaviour (greedy matching with backtracking, `re.M`
anchors, `re.finditer` scanning) for the concrete patterns appearing in the
source is translated into executable Lean functions.
-/

/-- Whitespace as matched by Python's regex `\s` and `str.strip()` on `str`
(ASCII whitespace plus the Unicode space characters relevant here). -/
def pyWs (c : Char) : Bool :=
  c = ' ' || c = '\t' || c = '\n' || c = '\r' || c = '\x0b' || c = '\x0c' ||
  c = '\u0085' || c = '\u00A0' || c = '\u1680' ||
  ('\u2000' ≤ c && c ≤ '\u200A') ||
  c = '\u2028' || c = '\u2029' || c = '\u202F' || c = '\u205F' || c = '\u3000'

/-- Length of the maximal leading whitespace run (`\s*` consumed greedily). -/
def wsRun : List Char → Nat
  | [] => 0
  | c :: t => if pyWs c then wsRun t + 1 else 0

/-- Length of the maximal leading run of `#` characters. -/
def hashRun : List Char → Nat
  | [] => 0
  | c :: t => if c = '#' then hashRun t + 1 else 0

/-- Models Python `str.strip()`: drop leading and trailing whitespace. -/
def pyStrip (l : List Char) : List Char :=
  ((l.dropWhile pyWs).reverse.dropWhile pyWs).reverse

/-- Models Python `str.split("\n")`: split on every newline, keeping empty
pieces (the result is always non-empty). -/
def splitNl : List Char → List (List Char)
  | [] => [[]]
  | c :: t =>
    match splitNl t with
    | [] => [[c]]
    | h :: r => if c = '\n' then [] :: h :: r else (c :: h) :: r

/-- Backtracking helper for the greedy `\s+` before `(.+)` in `HEADER_RE`:
try giving back whitespace characters (largest index first, never index 0,
since `\s+` must keep at least one character) until one that `.` can match
(any character other than a newline) is found. -/
def backJ (s : List Char) : Nat → Option Nat
  | 0 => none
  | j + 1 =>
    match s.get? (j + 1) with
    | some c => if c = '\n' then backJ s j else some (j + 1)
    | none => backJ s j

/-- Core of `HEADER_RE = ^\s*(?:[-*]\s*)?(#{1,6})\s+(.+)$` (with `re.M`),
applied after the leading `\s*` has been consumed: given the suffix starting
at the first non-whitespace character, return the captured group 2 together
with the number of characters consumed from that suffix, or `none` when the
pattern does not match here. -/
def matchAfterWs (s1 : List Char) : Option (List Char × Nat) :=
  let bLen : Nat :=
    if s1.head? = some '-' ∨ s1.head? = some '*' then 1 + wsRun s1.tail else 0
  let s2 := s1.drop bLen
  let n := hashRun s2
  if n = 0 ∨ 6 < n then none
  else
    let s3 := s2.drop n
    let w := wsRun s3
    if w = 0 then none
    else
      let s4 := s3.drop w
      if s4.head? = some '\n' ∨ s4.head? = none then
        match backJ s3 (w - 1) with
        | some j =>
          some (((s3.drop j).takeWhile (· != '\n')),
            bLen + n + j + ((s3.drop j).takeWhile (· != '\n')).length)
        | none => none
      else
        some ((s4.takeWhile (· != '\n')),
          bLen + n + w + (s4.takeWhile (· != '\n')).length)

/-- A match of `HEADER_RE` attempted at a line start: the leading `\s*` eats
the maximal whitespace run (which may cross newlines), then the core pattern
runs.  Returns the captured heading text and the total match length. -/
def matchSuffix (s : List Char) : Option (List Char × Nat) :=
  (matchAfterWs (s.dropWhile pyWs)).map (fun g => (g.1, wsRun s + g.2))

/-- Fuel-driven model of `HEADER_RE.finditer`: walk the text; at every line
start (`ok = true`, i.e. position 0 or just after a newline) attempt a match.
On a match, emit the captured heading text and continue from the match end;
otherwise advance one character.  Returns the characters skipped before the
first match together with the list of `(captured heading, following text up
to the next match start)` pairs — the latter is exactly
`text[m.end() : next.start()]` used by the program for section bodies. -/
def headerScanAux (fuel : Nat) (s : List Char) (ok : Bool) :
    List Char × List (List Char × List Char) :=
  match fuel with
  | 0 => (s, [])
  | fuel + 1 =>
    match s with
    | [] => ([], [])
    | c :: rest =>
      match ok with
      | false =>
        let p := headerScanAux fuel rest (c == '\n')
        (c :: p.1, p.2)
      | true =>
        match matchSuffix (c :: rest) with
        | some (g2, len) =>
          let p := headerScanAux fuel ((c :: rest).drop len) false
          ([], (g2, p.1) :: p.2)
        | none =>
          let p := headerScanAux fuel rest (c == '\n')
          (c :: p.1, p.2)

/-- Scan with canonical (sufficient) fuel. -/
def scanChars (s : List Char) (ok : Bool) : List Char × List (List Char × List Char) :=
  headerScanAux (s.length + 1) s ok

/-- The list of `HEADER_RE` matches of a text, as used by both
`build_pptx` (`headers_local`, line 384) and the Word export
(`headers_for_doc`, line 480): each entry is the captured heading text
(group 2, untrimmed) paired with the body slice `text[end : next_start]`. -/
def headerScan (text : List Char) : List (List Char × List Char) :=
  (scanChars text true).2

/-- Characters forbidden in filenames, from the character class of
`re.sub(r'[\\/:*?"<>|]', "_", filename_base)` (line 353). -/
def forbiddenChar (c : Char) : Bool :=
  c = '\\' || c = '/' || c = ':' || c = '*' || c = '?' || c = '"' ||
  c = '<' || c = '>' || c = '|'

/-- The filename sanitisation performed at line 353: every forbidden
character is replaced by an underscore.  Nothing else is changed. -/
def sanitizeFilename (l : List Char) : List Char :=
  l.map (fun c => if forbiddenChar c then '_' else c)

/-- Run of characters matching `[^\n\r]*` (consumed greedily). -/
def nonNlRun : List Char → Nat
  | [] => 0
  | c :: t => if c = '\n' || c = '\r' then 0 else nonNlRun t + 1

/-- Backtracking for `\s*(.+)` in the title patterns: after the greedy `\s*`
consumed `w` characters, give whitespace back (down to zero characters, since
the quantifier is a star) until `.` can match. -/
def backJ0 (s : List Char) : Nat → Option Nat
  | 0 =>
    match s.head? with
    | some c => if c = '\n' then none else some 0
    | none => none
  | j + 1 =>
    match s.get? (j + 1) with
    | some c => if c = '\n' then backJ0 s j else some (j + 1)
    | none => backJ0 s j

/-- Matching of `\s*(.+)` against a suffix `s` (with `w = wsRun s`): returns
the captured group, or `none` when no non-newline character is reachable. -/
def dotPlusStar (s : List Char) (w : Nat) : Option (List Char) :=
  match (s.drop w).head? with
  | some c =>
    if c = '\n' then
      match (if w = 0 then none else backJ0 s (w - 1)) with
      | some j => some ((s.drop j).takeWhile (· != '\n'))
      | none => none
    else some ((s.drop w).takeWhile (· != '\n'))
  | none =>
    match (if w = 0 then none else backJ0 s (w - 1)) with
    | some j => some ((s.drop j).takeWhile (· != '\n'))
    | none => none

/-- The literal heading label in both title patterns. -/
def projLit : List Char := "一、專案名稱".data

/-- Continuation of pattern 1, `一、專案名稱[^\n\r]*\n\s*[-＊*]\s*(.+)`,
after the literal has been consumed. -/
def p1Rest (s : List Char) : Option (List Char) :=
  let a := nonNlRun s
  match (s.drop a).head? with
  | some c =>
    if c = '\n' then
      let u := s.drop (a + 1)
      let w := wsRun u
      match (u.drop w).head? with
      | some b =>
        if b = '-' || b = '＊' || b = '*' then
          let v := u.drop (w + 1)
          dotPlusStar v (wsRun v)
        else none
      | none => none
    else none
  | none => none

/-- Continuation of pattern 2, `一、專案名稱[^\n\r]*\n\s*(.+)`, after the
literal has been consumed. -/
def p2Rest (s : List Char) : Option (List Char) :=
  let a := nonNlRun s
  match (s.drop a).head? with
  | some c =>
    if c = '\n' then
      let u := s.drop (a + 1)
      dotPlusStar u (wsRun u)
    else none
  | none => none

/-- `re.search` for a pattern `projLit` followed by `restFn`: try every start
position from left to right and return the first full match's group. -/
def searchFrom (restFn : List Char → Option (List Char)) : List Char → Option (List Char)
  | [] => none
  | c :: t =>
    if projLit.isPrefixOf (c :: t) then
      match restFn ((c :: t).drop projLit.length) with
      | some g => some g
      | none => searchFrom restFn t
    else searchFrom restFn t

/-- One candidate start for `re.sub(r"\s*\(.*?\)$", "", title)`: from index
`i`, the greedy `\s*` ends at `k`; the match needs `(` at `k`, a final `)` at
the `$` anchor position, and no newline in between (`.` does not match
newlines). -/
def parenAt (t : List Char) (e : Nat) (i : Nat) : Bool :=
  let k := i + wsRun (t.drop i)
  match t.get? k with
  | some c =>
    c = '(' && decide (k + 2 ≤ e) && (t.get? (e - 1) == some ')') &&
      !((t.drop (k + 1)).take (e - 1 - (k + 1))).contains '\n'
  | none => false

/-- Leftmost start index of a `\s*\(.*?\)$` match, if any. -/
def parenIdxAux (t : List Char) (e : Nat) : Nat → Nat → Option Nat
  | 0, _ => none
  | fuel + 1, i => if parenAt t e i then some i else parenIdxAux t e fuel (i + 1)

/-- Models `re.sub(r"\s*\(.*?\)$", "", title)` (line 272): remove a trailing
parenthesised remark together with the whitespace before it.  The `$` anchor
matches at the end of the string or just before a final newline. -/
def stripParenSub (t : List Char) : List Char :=
  let e := if t.getLast? = some '\n' then t.length - 1 else t.length
  match parenIdxAux t e (t.length + 1) 0 with
  | some i => t.take i ++ t.drop e
  | none => t

/-- `extract_project_title` (lines 263–274): try the bullet pattern, then the
plain pattern; on a match, strip the captured line and remove a trailing
parenthesised remark; otherwise return `None`. -/
def extract_project_title (text : List Char) : Option (List Char) :=
  match searchFrom p1Rest text with
  | some g => some (stripParenSub (pyStrip g))
  | none =>
    match searchFrom p2Rest text with
    | some g => some (stripParenSub (pyStrip g))
    | none => none

/-- The filename decision of the download section (lines 347–353):
`filename_base = extract_project_title(...)`; a falsy result (`None` or the
empty string) blocks all downloads with an error; otherwise the forbidden
characters are replaced and the base is used. -/
def exportFilenameBase (generated : List Char) : Option (List Char) :=
  match extract_project_title generated with
  | none => none
  | some t => if t = [] then none else some (sanitizeFilename t)

/-- One content slide of `add_slide` (lines 399–427): the heading text set on
the title placeholder and the body paragraphs, one per line of the content
(`for line in content.split("\n")`), blank lines included. -/
def add_slide (title content : List Char) : List Char × List (List Char) :=
  (title, splitNl content)

/-- The non-blank body lines emitted as paragraphs by the Word export
(lines 490–495): `if line.strip():` keeps only lines with non-whitespace
content, and the kept line is added verbatim. -/
def docSectionLines (body : List Char) : List (List Char) :=
  (splitNl body).filter (fun line => !(pyStrip line).isEmpty)

/-- The observable content of a built presentation: canvas size in inches
and the slide texts. -/
structure Pptx where
  widthIn : Rat
  heightIn : Rat
  titleSlide : List Char
  contentSlides : List (List Char × List (List Char))
deriving DecidableEq, Repr

/-- `build_pptx` (lines 364–445): pick the canvas size from `aspect` alone,
parse the headings with `HEADER_RE`, and emit one title slide plus either one
content slide per section (`add_slide(h.group(2).strip(), slice.strip())`) or
a single fallback slide `add_slide(title_text, markdown_text)`. -/
def build_pptx (markdown_text title_text : List Char) (aspect : String) : Pptx :=
  let wh : Rat × Rat :=
    if aspect = "16:9" then (133333333 / 10000000, 15 / 2) else (10, 15 / 2)
  let headers_local := headerScan markdown_text
  { widthIn := wh.1
    heightIn := wh.2
    titleSlide := title_text
    contentSlides :=
      if headers_local.isEmpty then [add_slide title_text markdown_text]
      else headers_local.map (fun h => add_slide (pyStrip h.1) (pyStrip h.2)) }

/-- A block of the generated Word document: a heading with its level, or a
body paragraph. -/
inductive DocBlock where
  | heading : List Char → Nat → DocBlock
  | para : List Char → DocBlock
deriving DecidableEq, Repr

/-- The Word export (lines 480–497): parse the same `HEADER_RE` headings; for
each section add a level-2 heading and the non-blank lines of the stripped
body slice as paragraphs; with no headings, add the whole text as a single
paragraph. -/
def build_docx (generated_text : List Char) : List DocBlock :=
  let headers_for_doc := headerScan generated_text
  if headers_for_doc.isEmpty then [DocBlock.para generated_text]
  else
    (headers_for_doc.map (fun h =>
      DocBlock.heading (pyStrip h.1) 2 ::
        (docSectionLines (pyStrip h.2)).map DocBlock.para)).flatten

/-- The heading texts of a Word document, in order. -/
def docHeadings (blocks : List DocBlock) : List (List Char) :=
  blocks.filterMap (fun b =>
    match b with
    | DocBlock.heading t _ => some t
    | DocBlock.para _ => none)

/-- The generate-button handler (lines 286–309), restricted to the state it
touches: given the session's stored generated text and the outcome of the
external generation call, return the new stored text and the error message
shown, if any.  On an exception the message `❌ 發生錯誤：{e}` is shown and
`generated_text` is set to `None`; the session value is only overwritten when
the result is truthy. -/
def generate_click (prev : String) (result : Except String String) : String × Option String :=
  match result with
  | Except.error e => (prev, some ("❌ 發生錯誤：" ++ e))
  | Except.ok t => if t = "" then (prev, none) else (t, none)

/-- Outcome of one export block's library calls. -/
inductive ExpOutcome where
  | ok : ExpOutcome
  | importError : ExpOutcome
  | otherError : ExpOutcome
deriving DecidableEq, Repr

/-- Observable result of the download section: which download buttons were
rendered, which per-block error messages were shown, and whether the script
run aborted with an uncaught exception. -/
structure ExportRun where
  ppt43Offered : Bool
  ppt169Offered : Bool
  pptErrorShown : Bool
  docOffered : Bool
  docErrorShown : Bool
  aborted : Bool
deriving DecidableEq, Repr

/-- The two export blocks (lines 448–469 and 472–510): the PPT block runs
first inside `try/except ImportError`, then the Word block inside its own
`try/except ImportError`.  Only `ImportError` is caught; any other exception
propagates, aborting the script run before the remaining statements execute
(widgets already rendered stay available). -/
def runExports (ppt doc : ExpOutcome) : ExportRun :=
  match ppt with
  | ExpOutcome.otherError =>
    { ppt43Offered := false, ppt169Offered := false, pptErrorShown := false
      docOffered := false, docErrorShown := false, aborted := true }
  | ExpOutcome.importError =>
    match doc with
    | ExpOutcome.ok =>
      { ppt43Offered := false, ppt169Offered := false, pptErrorShown := true
        docOffered := true, docErrorShown := false, aborted := false }
    | ExpOutcome.importError =>
      { ppt43Offered := false, ppt169Offered := false, pptErrorShown := true
        docOffered := false, docErrorShown := true, aborted := false }
    | ExpOutcome.otherError =>
      { ppt43Offered := false, ppt169Offered := false, pptErrorShown := true
        docOffered := false, docErrorShown := false, aborted := true }
  | ExpOutcome.ok =>
    match doc with
    | ExpOutcome.ok =>
      { ppt43Offered := true, ppt169Offered := true, pptErrorShown := false
        docOffered := true, docErrorShown := false, aborted := false }
    | ExpOutcome.importError =>
      { ppt43Offered := true, ppt169Offered := true, pptErrorShown := false
        docOffered := false, docErrorShown := true, aborted := false }
    | ExpOutcome.otherError =>
      { ppt43Offered := true, ppt169Offered := true, pptErrorShown := false
        docOffered := false, docErrorShown := false, aborted := true }

/-- The 4:3 canvas preset: `Inches(10) x Inches(7.5)` (lines 380–381). -/
def preset43 : Rat × Rat := (10, 15 / 2)

/-- The 16:9 canvas preset: `Inches(13.3333333) x Inches(7.5)`
(lines 377–378). -/
def preset169 : Rat × Rat := (133333333 / 10000000, 15 / 2)

/-- Join a list of lines with newline separators (inverse of splitting a
text into lines). -/
def joinLines : List (List Char) → List Char
  | [] => []
  | [l] => l
  | l :: ls => l ++ '\n' :: joinLines ls

/-- A line of well-formed Markdown that is not a heading of any form
recognised by `HEADER_RE`: it contains no newline, and is blank, or starts
(after indentation) with a character other than `#`, `-`, `*`, or is a
bullet item whose first payload character is not `#`.  Such a line can never
start a `HEADER_RE` match, whatever follows it. -/
def plainLine (l : List Char) : Bool :=
  !l.contains '\n' &&
  (match l.dropWhile pyWs with
   | [] => true
   | c :: rest =>
     if c = '#' then false
     else if c = '-' || c = '*' then
       match rest.dropWhile pyWs with
       | [] => false
       | d :: _ => d != '#'
     else true)

/-- One well-formed `#`-style Markdown section: a heading line made of
`hashes` hash marks, an inline whitespace run, and the heading text, followed
by plain body lines. -/
structure MdSection where
  hashes : Nat
  ws : List Char
  title : List Char
  body : List (List Char)
deriving DecidableEq, Repr

/-- The heading line of a section. -/
def MdSection.headingLine (s : MdSection) : List Char :=
  List.replicate s.hashes '#' ++ s.ws ++ s.title

/-- All lines contributed by a section: its heading then its body. -/
def MdSection.toLines (s : MdSection) : List (List Char) :=
  s.headingLine :: s.body

/-- Well-formedness of a section: 1–6 hash marks, a non-empty inline
whitespace run, a non-empty single-line title starting with a non-whitespace
character, and plain body lines. -/
def wellFormedSec (s : MdSection) : Bool :=
  decide (1 ≤ s.hashes) && decide (s.hashes ≤ 6) &&
  !s.ws.isEmpty && s.ws.all (fun c => pyWs c && c != '\n') &&
  (match s.title with
   | [] => false
   | c :: _ => !pyWs c) &&
  !s.title.contains '\n' &&
  s.body.all plainLine

/-- A well-formed Markdown document: leading plain lines, then the sections
in order. -/
def mdDoc (pre : List (List Char)) (secs : List MdSection) : List Char :=
  joinLines (pre ++ (secs.map MdSection.toLines).flatten)

theorem docHeadings_cons_heading (t : List Char) (n : Nat) (l : List DocBlock) :
    docHeadings (DocBlock.heading t n :: l) = t :: docHeadings l := rfl

theorem docHeadings_append (x y : List DocBlock) :
    docHeadings (x ++ y) = docHeadings x ++ docHeadings y := by
  simp [docHeadings, List.filterMap_append]

theorem docHeadings_map_para (l : List (List Char)) :
    docHeadings (l.map DocBlock.para) = [] := by
  induction l with
  | nil => rfl
  | cons a l ih => simp [docHeadings]

theorem docHeadings_sections (L : List (List Char × List Char)) :
    docHeadings ((L.map (fun h => DocBlock.heading (pyStrip h.1) 2 ::
        (docSectionLines (pyStrip h.2)).map DocBlock.para)).flatten) =
      L.map (fun h => pyStrip h.1) := by
  induction L with
  | nil => rfl
  | cons a L ih =>
    simp only [List.map_cons, List.flatten_cons, List.cons_append]
    rw [docHeadings_cons_heading, docHeadings_append, docHeadings_map_para,
      List.nil_append, ih]

/-- C2 (amended): the filename sanitiser only replaces the characters
`\ / : * ? " < > |` by underscores; it strips nothing, so the output has the
same length as the input, contains no forbidden character, and
`sanitize("a/b:c*d") = "a_b_c_d"`. -/
theorem sanitize_replace_no_strip : ∀ s : List Char,
    (sanitizeFilename s).length = s.length ∧
    (∀ c ∈ sanitizeFilename s, forbiddenChar c = false) ∧
    sanitizeFilename "a/b:c*d".data = "a_b_c_d".data := by
  intro s
  refine ⟨by simp [sanitizeFilename], ?_, by decide⟩
  intro c hc
  simp only [sanitizeFilename, List.mem_map] at hc
  obtain ⟨x, _, rfl⟩ := hc
  rcases Bool.eq_false_or_eq_true (forbiddenChar x) with h | h
  · rw [if_pos (by simp [h])]
    decide
  · rw [if_neg (by simp [h])]
    exact h

/-- C2 counterexample: the claim asserts that leading/trailing whitespace and
underscores are stripped, so that `sanitize("  __x__  ") = "x"`; the code
performs no stripping and returns the input unchanged. -/
theorem sanitize_strip_counterexample :
    sanitizeFilename "  __x__  ".data = "  __x__  ".data ∧
    "  __x__  ".data ≠ "x".data := by
  constructor
  · decide
  · decide

/-- C3 (amended): a generation error is caught and surfaced as the message
`❌ 發生錯誤：{e}`, and the session's stored generated text is left unchanged
(it keeps the previous generation's text; it is not reset to empty). -/
theorem generation_error_keeps_previous_text :
    ∀ (prev e : String),
      generate_click prev (Except.error e) = (prev, some ("❌ 發生錯誤：" ++ e)) := by
  intro prev e
  rfl

/-- C3 counterexample: after a failed generation the stored text still holds
the previous generation's value, which is not the empty string the claim
requires. -/
theorem generation_error_reset_counterexample :
    (generate_click "previous run" (Except.error "quota")).1 = "previous run" ∧
    "previous run" ≠ "" := by
  constructor
  · rfl
  · decide

/-- C7: for every section body the slide assembler emits one paragraph per
line (blank lines included, as empty paragraphs), while the Word assembler
emits exactly the non-blank lines of the same body and drops every blank
line. -/
theorem blank_line_asymmetry :
    ∀ (ti body : List Char),
      (add_slide ti body).2 = splitNl body ∧
      docSectionLines body = ((add_slide ti body).2).filter (fun l => !(pyStrip l).isEmpty) ∧
      ∀ l ∈ docSectionLines body, (pyStrip l).isEmpty = false := by
  intro ti body
  refine ⟨rfl, rfl, ?_⟩
  intro l hl
  simp only [docSectionLines, List.mem_filter] at hl
  simpa using hl.2

/-- C8: the slide canvas dimensions are a pure function of the aspect
argument alone and always equal one of the two fixed presets; `"4:3"` and
`"16:9"` select their respective preset. -/
theorem slide_dims_pure_of_aspect :
    ∀ (a : String) (t₁ ti₁ t₂ ti₂ : List Char),
      ((build_pptx t₁ ti₁ a).widthIn, (build_pptx t₁ ti₁ a).heightIn) =
        ((build_pptx t₂ ti₂ a).widthIn, (build_pptx t₂ ti₂ a).heightIn) ∧
      (((build_pptx t₁ ti₁ a).widthIn, (build_pptx t₁ ti₁ a).heightIn) = preset43 ∨
        ((build_pptx t₁ ti₁ a).widthIn, (build_pptx t₁ ti₁ a).heightIn) = preset169) ∧
      ((build_pptx t₁ ti₁ "4:3").widthIn, (build_pptx t₁ ti₁ "4:3").heightIn) = preset43 ∧
      ((build_pptx t₁ ti₁ "16:9").widthIn, (build_pptx t₁ ti₁ "16:9").heightIn) = preset169 := by
  intro a t₁ ti₁ t₂ ti₂
  by_cases h : a = "16:9" <;>
    simp [build_pptx, preset43, preset169, h]

/-- C9 (amended): an `ImportError` in the slide-export block does not affect
whether the Word artifact is offered; the Word block's outcome never affects
the already-offered slide artifacts; but a non-`ImportError` slide failure
aborts the run before the Word artifact can be produced. -/
theorem export_failure_isolation_amended :
    (∀ d, (runExports ExpOutcome.importError d).docOffered =
            (runExports ExpOutcome.ok d).docOffered ∧
          (runExports ExpOutcome.importError d).docErrorShown =
            (runExports ExpOutcome.ok d).docErrorShown) ∧
    (∀ p d, (runExports p d).ppt43Offered = (runExports p ExpOutcome.ok).ppt43Offered ∧
            (runExports p d).ppt169Offered = (runExports p ExpOutcome.ok).ppt169Offered) ∧
    (∀ d, (runExports ExpOutcome.otherError d).docOffered = false) := by
  refine ⟨?_, ?_, ?_⟩
  · intro d
    cases d <;> exact ⟨rfl, rfl⟩
  · intro p d
    cases p <;> cases d <;> exact ⟨rfl, rfl⟩
  · intro d
    cases d <;> rfl

/-- C9 counterexample: a non-`ImportError` failure while building the slide
artifact prevents the Word artifact from being offered, contradicting the
claimed independence for every failure. -/
theorem export_failure_isolation_counterexample :
    (runExports ExpOutcome.otherError ExpOutcome.ok).docOffered = false ∧
    (runExports ExpOutcome.ok ExpOutcome.ok).docOffered = true := by
  exact ⟨rfl, rfl⟩

/-- C1 (amended): `extract_project_title` can fail; when neither pattern
matches it returns `None`, and in that case the download section offers no
filename (export is blocked with an error) — there is no
`{report_kind}_{timestamp}` fallback. -/
theorem extract_title_none_blocks_export :
    ∀ generated : List Char,
      extract_project_title generated = none → exportFilenameBase generated = none := by
  intro g h
  simp [exportFilenameBase, h]

theorem extract_title_none_blocks_export_witness :
    exportFilenameBase "no headings here".data = none :=
  extract_title_none_blocks_export "no headings here".data (by decide)

/-- C1 counterexample: on text matching no pattern the extractor returns
`None` rather than a synthesized non-empty timestamp name, and export is
blocked. -/
theorem extract_title_fallback_counterexample :
    extract_project_title "no headings here".data = none ∧
    exportFilenameBase "no headings here".data = none ∧
    extract_project_title "一、專案名稱\n- 專案甲 (測試)".data = some "專案甲".data := by
  refine ⟨by decide, by decide, by decide⟩

/-- C10: both assemblers segment the generated text with the same compiled
`HEADER_RE`, so whenever at least one heading matches, the number of content
slides equals the number of Word headings and the trimmed titles agree
pairwise in order. -/
theorem assemblers_share_heading_regex :
    ∀ (text ti : List Char) (a : String),
      headerScan text ≠ [] →
      (build_pptx text ti a).contentSlides.length = (docHeadings (build_docx text)).length ∧
      (build_pptx text ti a).contentSlides.map Prod.fst = docHeadings (build_docx text) := by
  intro text ti a h
  have hne : (headerScan text).isEmpty = false := by
    cases hs : headerScan text with
    | nil => exact absurd hs h
    | cons x xs => rfl
  have hp : (build_pptx text ti a).contentSlides.map Prod.fst =
      (headerScan text).map (fun m => pyStrip m.1) := by
    simp [build_pptx, hne, add_slide, Function.comp]
  have hd : docHeadings (build_docx text) = (headerScan text).map (fun m => pyStrip m.1) := by
    simp [build_docx, hne]
    exact docHeadings_sections (headerScan text)
  constructor
  · rw [← List.length_map (build_pptx text ti a).contentSlides Prod.fst, hp, hd]
  · rw [hp, hd]

theorem assemblers_share_heading_regex_witness :
    (build_pptx "# A\nx".data "T".data "4:3").contentSlides.length =
      (docHeadings (build_docx "# A\nx".data)).length ∧
    (build_pptx "# A\nx".data "T".data "4:3").contentSlides.map Prod.fst =
      docHeadings (build_docx "# A\nx".data) :=
  assemblers_share_heading_regex "# A\nx".data "T".data "4:3" (by decide)

/-- C6 (amended): a heading whose captured text trims to empty (a `#`
followed by at least two whitespace characters and no following non-blank
line) yields a section with an empty title, and both assemblers render that
empty title literally — the document-level title is not substituted — without
failing; a bare `#` or `# ` is not recognised as a heading at all. -/
theorem empty_title_heading_amended :
    headerScan "#".data = [] ∧
    headerScan "# ".data = [] ∧
    headerScan "#  ".data = [([' '], [])] ∧
    (∀ (ti : List Char) (a : String),
        (build_pptx "#  ".data ti a).contentSlides = [([], [[]])]) ∧
    build_docx "#  ".data = [DocBlock.heading [] 2] := by
  refine ⟨by decide, by decide, by decide, ?_, by decide⟩
  intro ti a
  rfl

/-- C6 counterexample: a lone `#` line (here `"# "`) is not recognised as a
heading at all, and for a recognised empty-titled heading the slide heading
is the empty string, not the document-level title `"T"`. -/
theorem empty_title_heading_counterexample :
    headerScan "# ".data = [] ∧
    (build_pptx "#  ".data "T".data "4:3").contentSlides.map Prod.fst = [[]] ∧
    ([[]] : List (List Char)) ≠ ["T".data] := by
  refine ⟨by decide, by decide, by decide⟩

theorem pyWs_nl : pyWs '\n' = true := by decide

theorem pyWs_hash : pyWs '#' = false := by decide

theorem drop_wsRun (s : List Char) : s.drop (wsRun s) = s.dropWhile pyWs := by
  induction s with
  | nil => rfl
  | cons c t ih =>
    by_cases h : pyWs c = true
    · simp [wsRun, h, ih]
    · simp only [Bool.not_eq_true] at h
      simp [wsRun, h, List.dropWhile_cons]

theorem wsRun_cons_neg (c : Char) (t : List Char) (h : pyWs c = false) :
    wsRun (c :: t) = 0 := by
  simp [wsRun, h]

theorem wsRun_append_ws (a b : List Char) (ha : ∀ c ∈ a, pyWs c = true) :
    wsRun (a ++ b) = a.length + wsRun b := by
  induction a with
  | nil => simp
  | cons c t ih =>
    have hc := ha c (List.mem_cons_self c t)
    have ht : ∀ x ∈ t, pyWs x = true := fun x hx => ha x (List.mem_cons_of_mem c hx)
    simp [wsRun, hc, ih ht]
    omega

theorem dropWhile_append_ws (a b : List Char) (ha : ∀ c ∈ a, pyWs c = true) :
    (a ++ b).dropWhile pyWs = b.dropWhile pyWs := by
  induction a with
  | nil => simp
  | cons c t ih =>
    have hc := ha c (List.mem_cons_self c t)
    have ht : ∀ x ∈ t, pyWs x = true := fun x hx => ha x (List.mem_cons_of_mem c hx)
    simp [List.dropWhile_cons, hc, ih ht]

theorem dropWhile_append_stop (a b : List Char) (ha : a.dropWhile pyWs ≠ []) :
    (a ++ b).dropWhile pyWs = a.dropWhile pyWs ++ b := by
  induction a with
  | nil => simp at ha
  | cons c t ih =>
    by_cases h : pyWs c = true
    · have : (c :: t).dropWhile pyWs = t.dropWhile pyWs := by simp [List.dropWhile_cons, h]
      rw [this] at ha
      simp [List.dropWhile_cons, h, ih ha, this]
    · simp [Bool.not_eq_true] at h
      simp [List.dropWhile_cons, h]

theorem wsRun_append_stop (a b : List Char) (ha : a.dropWhile pyWs ≠ []) :
    wsRun (a ++ b) = wsRun a := by
  induction a with
  | nil => simp at ha
  | cons c t ih =>
    by_cases h : pyWs c = true
    · have : (c :: t).dropWhile pyWs = t.dropWhile pyWs := by simp [List.dropWhile_cons, h]
      rw [this] at ha
      simp [wsRun, h, ih ha]
    · simp [Bool.not_eq_true] at h
      simp [wsRun, h]

theorem dropWhile_eq_nil_all (l : List Char) (h : l.dropWhile pyWs = []) :
    ∀ c ∈ l, pyWs c = true := by
  induction l with
  | nil => intro c hc; simp at hc
  | cons c t ih =>
    by_cases hc : pyWs c = true
    · rw [List.dropWhile_cons_of_pos hc] at h
      intro x hx
      rcases List.mem_cons.mp hx with rfl | hx
      · exact hc
      · exact ih h x hx
    · rw [List.dropWhile_cons_of_neg (by simpa using hc)] at h
      simp at h

theorem hashRun_cons_neg (c : Char) (t : List Char) (h : c ≠ '#') :
    hashRun (c :: t) = 0 := by
  simp [hashRun, h]

theorem hashRun_replicate_append (k : Nat) (X : List Char) :
    hashRun (List.replicate k '#' ++ X) = k + hashRun X := by
  induction k with
  | zero => simp
  | succ k ih => simp [List.replicate_succ, hashRun, ih]; omega

theorem takeWhile_append_all (a b : List Char) (ha : ∀ c ∈ a, c ≠ '\n') :
    (a ++ b).takeWhile (· != '\n') = a ++ b.takeWhile (· != '\n') := by
  induction a with
  | nil => simp
  | cons c t ih =>
    have hc : (c != '\n') = true := by
      simpa using ha c (List.mem_cons_self c t)
    have ht : ∀ x ∈ t, x ≠ '\n' := fun x hx => ha x (List.mem_cons_of_mem c hx)
    simp [List.takeWhile_cons, hc, ih ht]

theorem joinLines_cons (l : List Char) (ls : List (List Char)) (h : ls ≠ []) :
    joinLines (l :: ls) = l ++ '\n' :: joinLines ls := by
  cases ls with
  | nil => exact absurd rfl h
  | cons a as => rfl

theorem joinLines_append (A B : List (List Char)) (h : B ≠ []) :
    joinLines (A ++ B) =
      ((A.map (fun l => l ++ ['\n'])).flatten) ++ joinLines B := by
  induction A with
  | nil => simp
  | cons a A ih =>
    have hAB : A ++ B ≠ [] := by
      cases A <;> simp [h]
    rw [List.cons_append, joinLines_cons a (A ++ B) hAB, ih]
    simp

theorem matchAfterWs_nil : matchAfterWs [] = none := rfl

theorem matchSuffix_nil : matchSuffix [] = none := rfl

theorem matchSuffix_none_iff (s : List Char) :
    matchSuffix s = none ↔ matchAfterWs (s.dropWhile pyWs) = none := by
  simp [matchSuffix]

theorem matchAfterWs_plain_head (c : Char) (X : List Char)
    (h1 : c ≠ '#') (h2 : c ≠ '-') (h3 : c ≠ '*') :
    matchAfterWs (c :: X) = none := by
  have hb : ¬((c :: X).head? = some '-' ∨ (c :: X).head? = some '*') := by
    simp [h2, h3]
  simp only [matchAfterWs, if_neg hb]
  simp [hashRun_cons_neg c X h1]

theorem matchAfterWs_bullet_plain (c : Char) (X : List Char)
    (hc : c = '-' ∨ c = '*') (d : Char) (u : List Char)
    (hX : X.dropWhile pyWs = d :: u) (hd : d ≠ '#') :
    matchAfterWs (c :: X) = none := by
  have hb : (c :: X).head? = some '-' ∨ (c :: X).head? = some '*' := by
    rcases hc with rfl | rfl
    · exact Or.inl rfl
    · exact Or.inr rfl
  simp only [matchAfterWs, if_pos hb]
  have hdrop : (c :: X).drop (1 + wsRun (c :: X).tail) = d :: u := by
    have : (c :: X).tail = X := rfl
    rw [this]
    have h1 : (1 + wsRun X) = wsRun X + 1 := by omega
    rw [h1]
    have : (c :: X).drop (wsRun X + 1) = X.drop (wsRun X) := by
      simp [List.drop_succ_cons]
    rw [this, drop_wsRun, hX]
  rw [hdrop]
  simp [hashRun_cons_neg d u hd]

theorem plainLine_no_nl (l : List Char) (h : plainLine l = true) : '\n' ∉ l := by
  simp only [plainLine, Bool.and_eq_true, Bool.not_eq_true'] at h
  intro hm
  have := h.1
  simp only [List.contains, List.elem_eq_mem, decide_eq_false_iff_not] at this
  exact this hm

theorem plainLine_cases (l : List Char) (h : plainLine l = true) (c : Char)
    (t : List Char) (hd : l.dropWhile pyWs = c :: t) :
    (c ≠ '#' ∧ c ≠ '-' ∧ c ≠ '*') ∨
    ((c = '-' ∨ c = '*') ∧ ∃ d u, t.dropWhile pyWs = d :: u ∧ d ≠ '#') := by
  simp only [plainLine, hd, Bool.and_eq_true] at h
  have h2 := h.2
  by_cases hh : c = '#'
  · simp [hh] at h2
  · by_cases hb : c = '-' ∨ c = '*'
    · right
      refine ⟨hb, ?_⟩
      have hbb : (c = '-' || c = '*') = true := by
        rcases hb with rfl | rfl <;> simp
      rw [if_neg hh, if_pos hbb] at h2
      cases hdt : t.dropWhile pyWs with
      | nil => rw [hdt] at h2; simp at h2
      | cons d u =>
        rw [hdt] at h2
        refine ⟨d, u, rfl, ?_⟩
        simpa using h2
    · left
      push_neg at hb
      exact ⟨hh, hb.1, hb.2⟩

theorem dropWhile_joinLines_blank (ls : List (List Char))
    (h : ∀ l ∈ ls, l.dropWhile pyWs = []) :
    (joinLines ls).dropWhile pyWs = [] := by
  induction ls with
  | nil => rfl
  | cons l ls ih =>
    cases ls with
    | nil => simpa [joinLines] using h l (List.mem_cons_self l [])
    | cons a as =>
      rw [joinLines_cons l (a :: as) (by simp)]
      rw [dropWhile_append_ws l _ (dropWhile_eq_nil_all l (h l (List.mem_cons_self l _)))]
      rw [List.dropWhile_cons_of_pos pyWs_nl]
      exact ih (fun x hx => h x (List.mem_cons_of_mem l hx))

theorem matchSuffix_join_plain : ∀ (ls ms : List (List Char)),
    (∀ l ∈ ls, plainLine l = true) →
    ((∃ l ∈ ls, l.dropWhile pyWs ≠ []) ∨ ms = []) →
    matchSuffix (joinLines (ls ++ ms)) = none := by
  intro ls
  induction ls with
  | nil =>
    intro ms _ hd
    rcases hd with ⟨l, hl, _⟩ | rfl
    · simp at hl
    · exact matchSuffix_nil
  | cons l ls ih =>
    intro ms hp hd
    have hpl := hp l (List.mem_cons_self l ls)
    rw [matchSuffix_none_iff]
    cases hdw : l.dropWhile pyWs with
    | cons c t =>
      have hnd : l.dropWhile pyWs ≠ [] := by rw [hdw]; simp
      by_cases hrest : ls ++ ms = []
      · have hj : joinLines ((l :: ls) ++ ms) = l := by
          rw [List.cons_append, hrest]
          rfl
        rw [hj, hdw]
        rcases plainLine_cases l hpl c t hdw with ⟨h1, h2, h3⟩ | ⟨hb, d, u, hdt, hd'⟩
        · exact matchAfterWs_plain_head c t h1 h2 h3
        · exact matchAfterWs_bullet_plain c t hb d u hdt hd'
      · have hj : joinLines ((l :: ls) ++ ms) = l ++ '\n' :: joinLines (ls ++ ms) := by
          rw [List.cons_append, joinLines_cons l (ls ++ ms) hrest]
        rw [hj, dropWhile_append_stop l _ hnd, hdw, List.cons_append]
        rcases plainLine_cases l hpl c t hdw with ⟨h1, h2, h3⟩ | ⟨hb, d, u, hdt, hd'⟩
        · exact matchAfterWs_plain_head c _ h1 h2 h3
        · have hndt : t.dropWhile pyWs ≠ [] := by rw [hdt]; simp
          have : (t ++ '\n' :: joinLines (ls ++ ms)).dropWhile pyWs =
              d :: (u ++ '\n' :: joinLines (ls ++ ms)) := by
            rw [dropWhile_append_stop t _ hndt, hdt, List.cons_append]
          exact matchAfterWs_bullet_plain c _ hb d _ this hd'
    | nil =>
      have hd' : (∃ x ∈ ls, x.dropWhile pyWs ≠ []) ∨ ms = [] := by
        rcases hd with ⟨x, hx, hnb⟩ | rfl
        · rcases List.mem_cons.mp hx with rfl | hx'
          · exact absurd hdw hnb
          · exact Or.inl ⟨x, hx', hnb⟩
        · exact Or.inr rfl
      have hp' : ∀ x ∈ ls, plainLine x = true :=
        fun x hx => hp x (List.mem_cons_of_mem l hx)
      by_cases hrest : ls ++ ms = []
      · have hj : joinLines ((l :: ls) ++ ms) = l := by
          rw [List.cons_append, hrest]
          rfl
        rw [hj, hdw]
        exact matchAfterWs_nil
      · have hj : joinLines ((l :: ls) ++ ms) = l ++ '\n' :: joinLines (ls ++ ms) := by
          rw [List.cons_append, joinLines_cons l (ls ++ ms) hrest]
        rw [hj, dropWhile_append_ws l _ (dropWhile_eq_nil_all l hdw),
          List.dropWhile_cons_of_pos pyWs_nl]
        exact (matchSuffix_none_iff _).mp (ih ms hp' hd')

theorem matchAfterWs_pos (s1 g : List Char) (len : Nat)
    (h : matchAfterWs s1 = some (g, len)) : 1 ≤ len := by
  simp only [matchAfterWs] at h
  repeat' split at h
  any_goals cases h
  all_goals omega

theorem matchSuffix_pos (s g : List Char) (len : Nat)
    (h : matchSuffix s = some (g, len)) : 1 ≤ len := by
  simp only [matchSuffix, Option.map_eq_some'] at h
  obtain ⟨⟨g', core⟩, hm, heq⟩ := h
  simp only [Prod.mk.injEq] at heq
  have := matchAfterWs_pos _ _ _ hm
  omega

seal matchSuffix in
theorem headerScanAux_fuel : ∀ (fuel₁ fuel₂ : Nat) (s : List Char) (ok : Bool),
    s.length + 1 ≤ fuel₁ → s.length + 1 ≤ fuel₂ →
    headerScanAux fuel₁ s ok = headerScanAux fuel₂ s ok := by
  intro fuel₁
  induction fuel₁ with
  | zero => intro f2 s ok h1 h2; omega
  | succ f ih =>
    intro f2 s ok h1 h2
    match f2, s with
    | 0, s => omega
    | f2' + 1, [] => rfl
    | f2' + 1, c :: rest =>
      have hr1 : rest.length + 1 ≤ f := by simp at h1; omega
      have hr2 : rest.length + 1 ≤ f2' := by simp at h2; omega
      cases ok with
      | false =>
        show headerScanAux (f + 1) (c :: rest) false =
          headerScanAux (f2' + 1) (c :: rest) false
        rw [headerScanAux, headerScanAux]
        rw [ih f2' rest (c == '\n') hr1 hr2]
      | true =>
        show headerScanAux (f + 1) (c :: rest) true =
          headerScanAux (f2' + 1) (c :: rest) true
        rw [headerScanAux, headerScanAux]
        cases hm : matchSuffix (c :: rest) with
        | none =>
          simp only [hm]
          rw [ih f2' rest (c == '\n') hr1 hr2]
        | some gl =>
          obtain ⟨g, len⟩ := gl
          have hpos := matchSuffix_pos _ _ _ hm
          have hd1 : ((c :: rest).drop len).length + 1 ≤ f := by
            simp only [List.length_drop, List.length_cons]
            omega
          have hd2 : ((c :: rest).drop len).length + 1 ≤ f2' := by
            simp only [List.length_drop, List.length_cons]
            omega
          simp only [hm]
          rw [ih f2' ((c :: rest).drop len) false hd1 hd2]

theorem scanChars_nil (ok : Bool) : scanChars [] ok = ([], []) := rfl

seal matchSuffix in
theorem scanChars_skip (c : Char) (rest : List Char) :
    scanChars (c :: rest) false =
      (c :: (scanChars rest (c == '\n')).1, (scanChars rest (c == '\n')).2) := by
  unfold scanChars
  simp only [List.length_cons]
  rw [headerScanAux]

seal matchSuffix in
theorem scanChars_step (c : Char) (rest : List Char)
    (h : matchSuffix (c :: rest) = none) :
    scanChars (c :: rest) true =
      (c :: (scanChars rest (c == '\n')).1, (scanChars rest (c == '\n')).2) := by
  unfold scanChars
  simp only [List.length_cons]
  rw [headerScanAux, h]

seal matchSuffix in
theorem scanChars_match (s g : List Char) (len : Nat)
    (h : matchSuffix s = some (g, len)) :
    scanChars s true =
      ([], (g, (scanChars (s.drop len) false).1) ::
        (scanChars (s.drop len) false).2) := by
  cases s with
  | nil => rw [matchSuffix_nil] at h; cases h
  | cons c rest =>
    have hpos := matchSuffix_pos _ _ _ h
    unfold scanChars
    simp only [List.length_cons]
    rw [headerScanAux, h]
    show ([], (g, (headerScanAux (rest.length + 1) ((c :: rest).drop len) false).1) ::
        (headerScanAux (rest.length + 1) ((c :: rest).drop len) false).2) = _
    rw [headerScanAux_fuel (rest.length + 1) (((c :: rest).drop len).length + 1)
      ((c :: rest).drop len) false
      (by simp only [List.length_drop, List.length_cons]; omega) (by omega)]

theorem scanChars_walk : ∀ (l : List Char), '\n' ∉ l → ∀ (r : List Char),
    scanChars (l ++ r) false = (l ++ (scanChars r false).1, (scanChars r false).2) := by
  intro l
  induction l with
  | nil => intro _ r; simp
  | cons c t ih =>
    intro hl r
    have hc : c ≠ '\n' := fun e => hl (e ▸ List.mem_cons_self c t)
    have ht : '\n' ∉ t := fun m => hl (List.mem_cons_of_mem c m)
    rw [List.cons_append, scanChars_skip]
    rw [show (c == '\n') = false from by simp [hc]]
    rw [ih ht r]
    simp

theorem scanChars_line_fail (l r : List Char) (hnl : '\n' ∉ l)
    (h : matchSuffix (l ++ '\n' :: r) = none) :
    scanChars (l ++ '\n' :: r) true =
      (l ++ '\n' :: (scanChars r true).1, (scanChars r true).2) := by
  cases l with
  | nil =>
    simp only [List.nil_append] at h ⊢
    rw [scanChars_step _ _ h]
    simp
  | cons c t =>
    have hc : c ≠ '\n' := fun e => hnl (e ▸ List.mem_cons_self c t)
    have ht : '\n' ∉ t := fun m => hnl (List.mem_cons_of_mem c m)
    rw [List.cons_append] at h ⊢
    rw [scanChars_step _ _ h]
    rw [show (c == '\n') = false from by simp [hc]]
    rw [scanChars_walk t ht ('\n' :: r), scanChars_skip]
    simp

theorem scanChars_last_fail (l : List Char) (hnl : '\n' ∉ l)
    (h : matchSuffix l = none) :
    scanChars l true = (l, []) := by
  cases l with
  | nil => rfl
  | cons c t =>
    have hc : c ≠ '\n' := fun e => hnl (e ▸ List.mem_cons_self c t)
    have ht : '\n' ∉ t := fun m => hnl (List.mem_cons_of_mem c m)
    rw [scanChars_step _ _ h]
    rw [show (c == '\n') = false from by simp [hc]]
    have := scanChars_walk t ht []
    rw [List.append_nil] at this
    rw [this, scanChars_nil]
    simp

theorem scanChars_join_plain : ∀ (ls : List (List Char)),
    (∀ l ∈ ls, plainLine l = true) →
    scanChars (joinLines ls) true = (joinLines ls, []) := by
  intro ls
  induction ls with
  | nil => intro _; rfl
  | cons l ls ih =>
    intro hp
    have hpl := hp l (List.mem_cons_self l ls)
    have hnl := plainLine_no_nl l hpl
    have hm : matchSuffix (joinLines ((l :: ls) ++ [])) = none :=
      matchSuffix_join_plain (l :: ls) [] hp (Or.inr rfl)
    rw [List.append_nil] at hm
    cases ls with
    | nil =>
      exact scanChars_last_fail l hnl hm
    | cons a as =>
      rw [joinLines_cons l (a :: as) (by simp)] at hm ⊢
      rw [scanChars_line_fail l (joinLines (a :: as)) hnl hm]
      rw [ih (fun x hx => hp x (List.mem_cons_of_mem l hx))]

theorem matchAfterWs_heading (k : Nat) (hk1 : 1 ≤ k) (hk6 : k ≤ 6)
    (ws : List Char) (hws : ws ≠ []) (hwsall : ∀ c ∈ ws, pyWs c = true)
    (ti : List Char) (d : Char) (ti' : List Char) (hti : ti = d :: ti')
    (hd : pyWs d = false) (htnl : ∀ c ∈ ti, c ≠ '\n')
    (TL : List Char) (hTL : TL = [] ∨ TL.head? = some '\n') :
    matchAfterWs (List.replicate k '#' ++ ws ++ ti ++ TL) =
      some (ti, k + ws.length + ti.length) := by
  obtain ⟨k', rfl⟩ : ∃ k', k = k' + 1 := ⟨k - 1, by omega⟩
  obtain ⟨e, ws', rfl⟩ : ∃ e ws', ws = e :: ws' := by
    cases ws with
    | nil => simp at hws
    | cons e ws' => exact ⟨e, ws', rfl⟩
  subst hti
  have he : pyWs e = true := hwsall e (List.mem_cons_self _ _)
  have heh : e ≠ '#' := by
    intro h
    rw [h, pyWs_hash] at he
    cases he
  have hdn : d ≠ '\n' := by
    intro h
    rw [h, pyWs_nl] at hd
    cases hd
  have htnl' : ∀ c ∈ d :: ti', c ≠ '\n' := htnl
  simp only [matchAfterWs, List.append_assoc, List.cons_append]
  have hSc : List.replicate (k' + 1) '#' ++ e :: (ws' ++ (d :: (ti' ++ TL))) =
      '#' :: (List.replicate k' '#' ++ e :: (ws' ++ (d :: (ti' ++ TL)))) := by
    simp [List.replicate_succ]
  rw [hSc]
  rw [if_neg (by simp : ¬(('#' :: (List.replicate k' '#' ++ e :: (ws' ++ (d :: (ti' ++ TL))))).head? = some '-' ∨ ('#' :: (List.replicate k' '#' ++ e :: (ws' ++ (d :: (ti' ++ TL))))).head? = some '*'))]
  simp only [List.drop_zero]
  have hn : hashRun ('#' :: (List.replicate k' '#' ++ e :: (ws' ++ (d :: (ti' ++ TL))))) = k' + 1 := by
    simp [hashRun, hashRun_replicate_append, hashRun_cons_neg, heh]
  rw [hn]
  rw [if_neg (by omega : ¬(k' + 1 = 0 ∨ 6 < k' + 1))]
  have hs3 : List.drop (k' + 1) ('#' :: (List.replicate k' '#' ++ e :: (ws' ++ (d :: (ti' ++ TL))))) =
      e :: (ws' ++ (d :: (ti' ++ TL))) := by
    rw [List.drop_succ_cons]
    exact List.drop_left' (List.length_replicate k' '#')
  rw [hs3]
  have hwall' : ∀ c ∈ ws', pyWs c = true :=
    fun c hc => hwsall c (List.mem_cons_of_mem e hc)
  have hw : wsRun (e :: (ws' ++ (d :: (ti' ++ TL)))) = ws'.length + 1 := by
    simp [wsRun, he, wsRun_append_ws ws' _ hwall', wsRun_cons_neg, hd]
  rw [hw]
  rw [if_neg (by omega : ¬(ws'.length + 1 = 0))]
  have hs4 : List.drop (ws'.length + 1) (e :: (ws' ++ (d :: (ti' ++ TL)))) =
      d :: (ti' ++ TL) := by
    rw [List.drop_succ_cons]
    exact List.drop_left' rfl
  rw [hs4]
  rw [if_neg (by simp [hdn] : ¬((d :: (ti' ++ TL)).head? = some '\n' ∨ (d :: (ti' ++ TL)).head? = none))]
  have htk : (d :: (ti' ++ TL)).takeWhile (· != '\n') = d :: ti' := by
    rw [← List.cons_append, takeWhile_append_all _ _ htnl']
    have : TL.takeWhile (· != '\n') = [] := by
      rcases hTL with rfl | hh
      · rfl
      · cases TL with
        | nil => rfl
        | cons x xs =>
          simp only [List.head?_cons, Option.some.injEq] at hh
          subst hh
          simp
    rw [this, List.append_nil]
  rw [htk]
  simp [List.length_cons]

theorem wellFormedSec_parts (k : Nat) (ws ti : List Char) (body : List (List Char))
    (hw : wellFormedSec ⟨k, ws, ti, body⟩ = true) :
    1 ≤ k ∧ k ≤ 6 ∧ ws ≠ [] ∧ (∀ c ∈ ws, pyWs c = true ∧ c ≠ '\n') ∧
    (∃ d ti', ti = d :: ti' ∧ pyWs d = false) ∧ (∀ c ∈ ti, c ≠ '\n') ∧
    (∀ l ∈ body, plainLine l = true) := by
  simp only [wellFormedSec, Bool.and_eq_true, decide_eq_true_eq, List.all_eq_true,
    Bool.not_eq_true'] at hw
  obtain ⟨⟨⟨⟨⟨⟨h1, h6⟩, hne⟩, hall⟩, hti⟩, hnl⟩, hbody⟩ := hw
  refine ⟨h1, h6, ?_, ?_, ?_, ?_, hbody⟩
  · intro h
    rw [h] at hne
    simp at hne
  · intro c hc
    have := hall c hc
    simp only [Bool.and_eq_true, bne_iff_ne, ne_eq] at this
    exact ⟨this.1, this.2⟩
  · cases hti' : ti with
    | nil => rw [hti'] at hti; simp at hti
    | cons d ti' =>
      rw [hti'] at hti
      simp only [Bool.not_eq_true'] at hti
      exact ⟨d, ti', rfl, by simpa using hti⟩
  · intro c hc e
    subst e
    simp only [List.contains, List.elem_eq_mem, decide_eq_false_iff_not] at hnl
    exact hnl hc

theorem matchSuffix_heading (blanks : List (List Char))
    (hb : ∀ b ∈ blanks, b.dropWhile pyWs = [])
    (sec : MdSection) (hw : wellFormedSec sec = true) (rs : List (List Char)) :
    matchSuffix (joinLines (blanks ++ sec.headingLine :: rs)) =
      some (sec.title,
        ((blanks.map (fun l => l ++ ['\n'])).flatten).length + sec.headingLine.length) ∧
    (joinLines (blanks ++ sec.headingLine :: rs)).drop
        (((blanks.map (fun l => l ++ ['\n'])).flatten).length + sec.headingLine.length) =
      (if rs = [] then ([] : List Char) else '\n' :: joinLines rs) := by
  obtain ⟨k, ws, ti, body⟩ := sec
  obtain ⟨h1, h6, hwsne, hwsall, ⟨d, ti', hti, hd⟩, htnl, _⟩ :=
    wellFormedSec_parts k ws ti body hw
  have hflat : ∀ c ∈ (blanks.map (fun l => l ++ ['\n'])).flatten, pyWs c = true := by
    intro c hc
    simp only [List.mem_flatten, List.mem_map] at hc
    obtain ⟨piece, ⟨b, hbmem, rfl⟩, hcp⟩ := hc
    rcases List.mem_append.mp hcp with hcb | hcn
    · exact dropWhile_eq_nil_all b (hb b hbmem) c hcb
    · simp at hcn
      subst hcn
      exact pyWs_nl
  have hhl : MdSection.headingLine ⟨k, ws, ti, body⟩ =
      List.replicate k '#' ++ ws ++ ti := rfl
  have hjoin : joinLines (blanks ++ MdSection.headingLine ⟨k, ws, ti, body⟩ :: rs) =
      (blanks.map (fun l => l ++ ['\n'])).flatten ++
        ((List.replicate k '#' ++ ws ++ ti) ++
          (if rs = [] then ([] : List Char) else '\n' :: joinLines rs)) := by
    rw [joinLines_append _ _ (by simp)]
    congr 1
    rw [hhl]
    cases rs with
    | nil => simp [joinLines]
    | cons a as =>
      rw [joinLines_cons _ _ (by simp)]
      simp
  have hheadne : (List.replicate k '#' ++ ws ++ ti ++
      (if rs = [] then ([] : List Char) else '\n' :: joinLines rs)).head? = some '#' := by
    obtain ⟨k', rfl⟩ : ∃ k', k = k' + 1 := ⟨k - 1, by omega⟩
    simp [List.replicate_succ]
  have hTL : (if rs = [] then ([] : List Char) else '\n' :: joinLines rs) = [] ∨
      (if rs = [] then ([] : List Char) else '\n' :: joinLines rs).head? = some '\n' := by
    cases rs with
    | nil => exact Or.inl (by simp)
    | cons a as => exact Or.inr (by simp)
  have hcore := matchAfterWs_heading k h1 h6 ws hwsne (fun c hc => (hwsall c hc).1)
    ti d ti' hti (by simpa [hti] using hd) htnl
    (if rs = [] then ([] : List Char) else '\n' :: joinLines rs) hTL
  have hwsrun : wsRun ((blanks.map (fun l => l ++ ['\n'])).flatten ++
      (List.replicate k '#' ++ ws ++ ti ++
        (if rs = [] then ([] : List Char) else '\n' :: joinLines rs))) =
      ((blanks.map (fun l => l ++ ['\n'])).flatten).length := by
    rw [wsRun_append_ws _ _ hflat]
    have hz : wsRun (List.replicate k '#' ++ ws ++ ti ++
        (if rs = [] then ([] : List Char) else '\n' :: joinLines rs)) = 0 := by
      cases hx : (List.replicate k '#' ++ ws ++ ti ++
          (if rs = [] then ([] : List Char) else '\n' :: joinLines rs)) with
      | nil => rfl
      | cons x xs =>
        rw [hx] at hheadne
        simp only [List.head?_cons, Option.some.injEq] at hheadne
        subst hheadne
        exact wsRun_cons_neg '#' xs pyWs_hash
    omega
  have hdwhl : ((blanks.map (fun l => l ++ ['\n'])).flatten ++
      (List.replicate k '#' ++ ws ++ ti ++
        (if rs = [] then ([] : List Char) else '\n' :: joinLines rs))).dropWhile pyWs =
      List.replicate k '#' ++ ws ++ ti ++
        (if rs = [] then ([] : List Char) else '\n' :: joinLines rs) := by
    rw [dropWhile_append_ws _ _ hflat]
    cases hx : (List.replicate k '#' ++ ws ++ ti ++
        (if rs = [] then ([] : List Char) else '\n' :: joinLines rs)) with
    | nil => rfl
    | cons x xs =>
      rw [hx] at hheadne
      simp only [List.head?_cons, Option.some.injEq] at hheadne
      subst hheadne
      exact List.dropWhile_cons_of_neg (by simp [pyWs_hash])
  constructor
  · simp only [matchSuffix]
    rw [hjoin, hdwhl, hwsrun, hcore]
    simp only [Option.map_some', Option.some.injEq, Prod.mk.injEq, hhl,
      List.length_append, List.length_replicate]
  · rw [hjoin, ← List.append_assoc]
    refine List.drop_left' ?_
    simp [hhl, List.length_append]

theorem scanChars_to_heading : ∀ (pre : List (List Char)),
    (∀ l ∈ pre, plainLine l = true) →
    ∀ (sec : MdSection), wellFormedSec sec = true →
    ∀ (rs : List (List Char)),
    (scanChars (joinLines (pre ++ sec.headingLine :: rs)) true).2.map Prod.fst =
      sec.title :: (scanChars (joinLines rs) true).2.map Prod.fst := by
  intro pre
  induction pre with
  | nil =>
    intro _ sec hw rs
    obtain ⟨hm, hdrop⟩ := matchSuffix_heading [] (by simp) sec hw rs
    simp only [List.nil_append] at hm hdrop ⊢
    rw [scanChars_match _ _ _ hm, hdrop]
    cases rs with
    | nil => simp [scanChars_nil, joinLines]
    | cons a as =>
      rw [if_neg (by simp : ¬(a :: as = []))]
      rw [scanChars_skip]
      simp
  | cons l pre ih =>
    intro hp sec hw rs
    have hpl := hp l (List.mem_cons_self l pre)
    have hnl := plainLine_no_nl l hpl
    by_cases hall : ∀ b ∈ l :: pre, b.dropWhile pyWs = []
    · obtain ⟨hm, hdrop⟩ := matchSuffix_heading (l :: pre) hall sec hw rs
      rw [scanChars_match _ _ _ hm, hdrop]
      cases rs with
      | nil => simp [scanChars_nil, joinLines]
      | cons a as =>
        rw [if_neg (by simp : ¬(a :: as = []))]
        rw [scanChars_skip]
        simp
    · have hex : ∃ b ∈ l :: pre, b.dropWhile pyWs ≠ [] := by
        push_neg at hall
        exact hall
      have hm : matchSuffix (joinLines ((l :: pre) ++ sec.headingLine :: rs)) = none :=
        matchSuffix_join_plain (l :: pre) (sec.headingLine :: rs) hp (Or.inl hex)
      have htail : pre ++ sec.headingLine :: rs ≠ [] := by simp
      rw [List.cons_append, joinLines_cons l _ htail] at hm ⊢
      rw [scanChars_line_fail l _ hnl hm]
      exact ih (fun x hx => hp x (List.mem_cons_of_mem l hx)) sec hw rs

theorem scanBlocks : ∀ (secs : List MdSection),
    (∀ s ∈ secs, wellFormedSec s = true) →
    ∀ (pre : List (List Char)), (∀ l ∈ pre, plainLine l = true) →
    (scanChars (joinLines (pre ++ (secs.map MdSection.toLines).flatten)) true).2.map
        Prod.fst =
      secs.map MdSection.title := by
  intro secs
  induction secs with
  | nil =>
    intro _ pre hpre
    simp only [List.map_nil, List.flatten_nil, List.append_nil]
    rw [scanChars_join_plain pre hpre]
    rfl
  | cons sec secs ih =>
    intro hws pre hpre
    have hwsec := hws sec (List.mem_cons_self sec secs)
    have hbody : ∀ l ∈ sec.body, plainLine l = true := by
      obtain ⟨k, ws, ti, body⟩ := sec
      exact (wellFormedSec_parts k ws ti body hwsec).2.2.2.2.2.2
    have hassoc : pre ++ ((sec :: secs).map MdSection.toLines).flatten =
        pre ++ sec.headingLine :: (sec.body ++ (secs.map MdSection.toLines).flatten) := by
      simp [MdSection.toLines, List.append_assoc]
    rw [hassoc]
    rw [scanChars_to_heading pre hpre sec hwsec
      (sec.body ++ (secs.map MdSection.toLines).flatten)]
    rw [ih (fun s hs => hws s (List.mem_cons_of_mem sec hs)) sec.body hbody]
    simp

/-- C4: for every well-formed Markdown input consisting of plain lines and
exactly N `#`-style heading lines (and no other heading forms), the
segmentation finds exactly N sections, in source order, each section's title
being the heading's captured text trimmed of surrounding whitespace. -/
theorem segment_markdown_headings (pre : List (List Char)) (secs : List MdSection)
    (hpre : ∀ l ∈ pre, plainLine l = true)
    (hsecs : ∀ s ∈ secs, wellFormedSec s = true) :
    (headerScan (mdDoc pre secs)).length = secs.length ∧
    (headerScan (mdDoc pre secs)).map (fun m => pyStrip m.1) =
      secs.map (fun s => pyStrip s.title) := by
  have key : (headerScan (mdDoc pre secs)).map Prod.fst = secs.map MdSection.title := by
    unfold headerScan mdDoc
    exact scanBlocks secs hsecs pre hpre
  constructor
  · have hlen := congrArg List.length key
    simpa using hlen
  · have hmap := congrArg (List.map pyStrip) key
    simpa [List.map_map, Function.comp] using hmap

theorem segment_markdown_headings_witness :
    (headerScan (mdDoc ["intro".data]
        [⟨2, [' '], "Alpha".data, ["line one".data, "".data]⟩,
         ⟨1, [' '], "Beta".data, []⟩])).length = 2 ∧
    (headerScan (mdDoc ["intro".data]
        [⟨2, [' '], "Alpha".data, ["line one".data, "".data]⟩,
         ⟨1, [' '], "Beta".data, []⟩])).map (fun m => pyStrip m.1) =
      ["Alpha".data, "Beta".data] :=
  segment_markdown_headings ["intro".data]
    [⟨2, [' '], "Alpha".data, ["line one".data, "".data]⟩,
     ⟨1, [' '], "Beta".data, []⟩] (by decide) (by decide)

/-- C5: for input with zero heading lines the segmentation is empty, the
slide assembler produces one title slide plus exactly one content slide whose
heading is the document title and whose body is the full raw text, and the
Word assembler emits the full raw text as a single paragraph. -/
theorem no_heading_fallback (lines : List (List Char))
    (h : ∀ l ∈ lines, plainLine l = true) (ti : List Char) (a : String) :
    headerScan (joinLines lines) = [] ∧
    (build_pptx (joinLines lines) ti a).titleSlide = ti ∧
    (build_pptx (joinLines lines) ti a).contentSlides =
      [(ti, splitNl (joinLines lines))] ∧
    build_docx (joinLines lines) = [DocBlock.para (joinLines lines)] := by
  have hs : headerScan (joinLines lines) = [] := by
    unfold headerScan
    rw [scanChars_join_plain lines h]
  refine ⟨hs, rfl, ?_, ?_⟩
  · simp [build_pptx, hs, add_slide]
  · simp [build_docx, hs]

theorem no_heading_fallback_witness :
    headerScan (joinLines ["hello world".data, "".data, "- item".data]) = [] ∧
    (build_pptx (joinLines ["hello world".data, "".data, "- item".data])
        "T".data "4:3").titleSlide = "T".data ∧
    (build_pptx (joinLines ["hello world".data, "".data, "- item".data])
        "T".data "4:3").contentSlides =
      [("T".data, splitNl (joinLines ["hello world".data, "".data, "- item".data]))] ∧
    build_docx (joinLines ["hello world".data, "".data, "- item".data]) =
      [DocBlock.para (joinLines ["hello world".data, "".data, "- item".data])] :=
  no_heading_fallback ["hello world".data, "".data, "- item".data]
    (by decide) "T".data "4:3"
